import Mathlib

/-!
Verification of the CXXRTL debug-server component of chipflow-lib
(`src/chipflow/common/sim/vendor/cxxrtl/cxxrtl_server.h`).

The C++ code is shallowly embedded: byte buffers become `List Nat`
(one `Nat` per byte), the `nlohmann::ordered_json` values become the
inductive type `JVal`, machine integers become `Nat`/`Int` with explicit
`% 2 ^ 32` where overflow matters, and the mutable objects (link
buffers, the replay player, the shared agent/server record) become
explicit state that every operation threads through.  Functions that can
throw a C++ exception or fail a `CXXRTL_ASSERT` return `Option`.
-/

namespace CxxrtlServer

/-! ## JSON values

Embedding of `nlohmann::ordered_json` as used by the server.  Integers
suffice for the numeric values the server manipulates.  `jdiscarded`
stands for the `discarded` value produced by `json::parse` with
`allow_exceptions=false` on malformed input. -/

inductive JVal where
  | jnull
  | jbool (b : Bool)
  | jint (n : Int)
  | jstr (s : String)
  | jarr (elems : List JVal)
  | jobj (fields : List (String × JVal))
  | jdiscarded
deriving Repr

/-- Key lookup, i.e. guarded `packet.at(key)`: `none` when the key is
absent or the value is not an object (`contains` returns `false` there). -/
def JVal.get : JVal → String → Option JVal
  | .jobj fields, key => fields.lookup key
  | _, _ => none

/-- Embedding of `packet.contains(key)`. -/
def JVal.containsKey (j : JVal) (key : String) : Bool :=
  (j.get key).isSome

/-- Embedding of `packet.erase(key)` on objects (identity elsewhere). -/
def JVal.eraseKey : JVal → String → JVal
  | .jobj fields, key => .jobj (fields.filter (fun f => !(f.1 == key)))
  | j, _ => j

/-- Embedding of `packet.empty()` on objects. -/
def JVal.isEmptyObj : JVal → Bool
  | .jobj fields => fields.isEmpty
  | _ => false

/-- Embedding of `packet == nullptr`. -/
def JVal.isNull : JVal → Bool
  | .jnull => true
  | _ => false

/-! ## Transport link (`basic_link`)

`basic_link::recv` scans the receive buffer for the first NUL byte; if
one exists it returns the bytes before it and erases them together with
the NUL, otherwise it returns the empty packet and leaves the buffer
alone.  `basic_link::send` appends the packet followed by a NUL. -/

/-- Core of `basic_link::recv`: `some (packet, rest)` when the buffer
contains a NUL (`recv_buf.find('\0') != npos`), splitting at the first
NUL byte; `none` otherwise. -/
def recvSplit : List Nat → Option (List Nat × List Nat)
  | [] => none
  | b :: rest =>
    if b = 0 then some ([], rest)
    else (recvSplit rest).map (fun pr => (b :: pr.1, pr.2))

/-- Embedding of `basic_link::recv`: returns the extracted packet and the
buffer that remains (the empty packet doubles as "no complete packet"). -/
def linkRecv (buf : List Nat) : List Nat × List Nat :=
  match recvSplit buf with
  | none => ([], buf)
  | some pr => pr

/-- Embedding of `basic_link::send`: `send_buf += packet; send_buf += '\0'`. -/
def linkSend (buf packet : List Nat) : List Nat :=
  buf ++ packet ++ [0]

/-- Perform `n` successive `recv` calls, collecting the returned packets
and the final buffer. -/
def recvAll : Nat → List Nat → List (List Nat) × List Nat
  | 0, buf => ([], buf)
  | n + 1, buf =>
    let pr := linkRecv buf
    let rest := recvAll n pr.2
    (pr.1 :: rest.1, rest.2)

/-- Perform successive `send` calls for every packet in the list. -/
def sendAll (buf : List Nat) (packets : List (List Nat)) : List Nat :=
  packets.foldl linkSend buf

/-- The framed byte stream `B1 ++ [0] ++ B2 ++ [0] ++ ...`. -/
def frameAll (packets : List (List Nat)) : List Nat :=
  packets.foldr (fun p acc => p ++ 0 :: acc) []

/-! ## Server receive and drain loop

`server::recv` turns an empty raw packet into `json(nullptr)` and parses
everything else; the drain loop in `server::run` keeps processing
packets until `recv()` compares equal to `nullptr`.  The JSON parser and
the packet processor are abstracted as function parameters, since the
claims about the loop are independent of them. -/

/-- Embedding of `server::recv`. -/
def serverRecv (parse : List Nat → JVal) (buf : List Nat) : JVal × List Nat :=
  let pr := linkRecv buf
  if pr.1 = [] then (.jnull, pr.2) else (parse pr.1, pr.2)

theorem recvSplit_length : ∀ buf pkt rest : List Nat,
    recvSplit buf = some (pkt, rest) → rest.length < buf.length := by
  intro buf
  induction buf with
  | nil => intro pkt rest h; simp [recvSplit] at h
  | cons b bs ih =>
    intro pkt rest h
    rw [recvSplit] at h
    by_cases hb : b = 0
    · rw [if_pos hb] at h
      cases h
      simp
    · rw [if_neg hb] at h
      cases hsp : recvSplit bs with
      | none => rw [hsp] at h; simp at h
      | some pr =>
        rw [hsp] at h
        have h' : (b :: pr.1, pr.2) = (pkt, rest) := by simpa using h
        cases h'
        have := ih pr.1 pr.2 (by rw [hsp])
        simp
        omega

/-- Embedding of the inner `while` of `server::run`: drain complete
packets from the receive buffer, sending one processed reply per packet,
until `recv()` yields a packet equal to `nullptr`.  Returns the replies
sent, the remaining receive buffer and the final server state. -/
def drainLoop {σ : Type} (parse : List Nat → JVal) (process : σ → JVal → JVal × σ)
    (st : σ) (buf : List Nat) : List JVal × List Nat × σ :=
  match h : recvSplit buf with
  | none => ([], buf, st)
  | some pr =>
    if pr.1 = [] then ([], pr.2, st)
    else if (parse pr.1).isNull then ([], pr.2, st)
    else
      let out := process st (parse pr.1)
      let rest := drainLoop parse process out.2 pr.2
      (out.1 :: rest.1, rest.2.1, rest.2.2)
termination_by buf.length
decreasing_by
  exact recvSplit_length buf pr.1 pr.2 (by rw [h])

/-! ## Base64 encoder (`base64_encode`)

The C++ function reads the input through a `const char *`.  On the
platforms the simulator targets with a signed `char` (x86-64 Linux,
Windows), a byte `>= 0x80` is read as a negative value and the
expression `(data[i] << 16) + (data[i+1] << 8) + data[i+2]` is evaluated
with sign-extended arithmetic before being converted to `uint32_t`.
`byteAsChar` performs that `char` reading; `u32OfInt` is the conversion
of the signed intermediate to `uint32_t`. -/

/-- Value of a byte read through a signed `char` (two's complement). -/
def byteAsChar (b : Nat) : Int :=
  if b % 256 < 128 then (b % 256 : Nat) else (b % 256 : Nat) - 256

/-- Conversion of a signed intermediate result to `uint32_t`. -/
def u32OfInt (x : Int) : Nat :=
  (x % (2 ^ 32)).toNat

/-- The standard Base64 alphabet, as in the source. -/
def b64Alphabet : List Char :=
  "ABCDEFGHIJKLMNOPQRSTUVWXYZabcdefghijklmnopqrstuvwxyz0123456789+/".toList

/-- Embedding of `alphabet[i]`. -/
def b64Char (i : Nat) : Char := b64Alphabet.getD i 'A'

/-- Embedding of `base64_encode` with `char` signed: groups of three
bytes, then the two-byte and one-byte leftover cases with `=` padding,
each group combined as `(a << 16) + (b << 8) + c` over sign-extended
`char` values and truncated to `uint32_t`. -/
def base64_encode : List Nat → List Char
  | a :: b :: c :: rest =>
    let chunk := u32OfInt (byteAsChar a * 65536 + byteAsChar b * 256 + byteAsChar c)
    b64Char ((chunk >>> 18) &&& 0x3f) :: b64Char ((chunk >>> 12) &&& 0x3f) ::
      b64Char ((chunk >>> 6) &&& 0x3f) :: b64Char ((chunk >>> 0) &&& 0x3f) ::
      base64_encode rest
  | [a, b] =>
    let chunk := u32OfInt (byteAsChar a * 65536 + byteAsChar b * 256)
    [b64Char ((chunk >>> 18) &&& 0x3f), b64Char ((chunk >>> 12) &&& 0x3f),
      b64Char ((chunk >>> 6) &&& 0x3f), '=']
  | [a] =>
    let chunk := u32OfInt (byteAsChar a * 65536)
    [b64Char ((chunk >>> 18) &&& 0x3f), b64Char ((chunk >>> 12) &&& 0x3f), '=', '=']
  | [] => []

/-- Modelled from the spec: the standard Base64 encoding of a byte
sequence ("standard alphabet, `=` padding"), with each 24-bit group
formed from the unsigned byte values.  This is the behaviour the spec
claims for `base64_encode`. -/
def base64_standard : List Nat → List Char
  | a :: b :: c :: rest =>
    let chunk := (a % 256) * 65536 + (b % 256) * 256 + c % 256
    b64Char ((chunk >>> 18) &&& 0x3f) :: b64Char ((chunk >>> 12) &&& 0x3f) ::
      b64Char ((chunk >>> 6) &&& 0x3f) :: b64Char ((chunk >>> 0) &&& 0x3f) ::
      base64_standard rest
  | [a, b] =>
    let chunk := (a % 256) * 65536 + (b % 256) * 256
    [b64Char ((chunk >>> 18) &&& 0x3f), b64Char ((chunk >>> 12) &&& 0x3f),
      b64Char ((chunk >>> 6) &&& 0x3f), '=']
  | [a] =>
    let chunk := (a % 256) * 65536
    [b64Char ((chunk >>> 18) &&& 0x3f), b64Char ((chunk >>> 12) &&& 0x3f), '=', '=']
  | [] => []

/-! ## Item value readout (`perform_query_interval`, masking)

A `variable` of a reference carries the bit width, the chunk count
`(width + 31) / 32` computed in `perform_reference_items`, the backing
store (`chunk_t *data`, modelled as the flattened list of 32-bit words)
and the memory index window `first_index ..= last_index`. -/

structure QueryVariable where
  width : Nat
  chunks : Nat
  data : List Nat
  first_index : Nat
  last_index : Nat

/-- Index sequence `first_index, ..., last_index` stepped by
`first_index < last_index ? +1 : -1` as in the readout loop. -/
def indexSeq (first last : Nat) : List Nat :=
  if first ≤ last then List.range' first (last - first + 1)
  else (List.range' last (first - last + 1)).reverse

/-- Embedding of the `std::copy` of `chunks` words
`data[chunks * index .. chunks * (index + 1))` into `item_values`. -/
def readChunks (v : QueryVariable) (index : Nat) : List Nat :=
  (List.range v.chunks).map (fun k => v.data.getD (v.chunks * index + k) 0)

/-- Embedding of the padding mask: when `width % 32 != 0`, the word at
offset `chunks - 1` of the block is ANDed with
`chunk_t(-1) >> (32 - width % 32)`. -/
def maskBlock (width : Nat) (cs : List Nat) : List Nat :=
  if width % 32 = 0 then cs
  else cs.set (cs.length - 1)
    (cs.getD (cs.length - 1) 0 &&& ((2 ^ 32 - 1) >>> (32 - width % 32)))

/-- Chunks emitted into `item_values` for one variable: one masked block
per index of the window. -/
def readVariable (v : QueryVariable) : List Nat :=
  (indexSeq v.first_index v.last_index).flatMap
    (fun i => maskBlock v.width (readChunks v i))

/-! ## Packet framing: builders and parsers -/

/-- Embedding of `packet.is_discarded()`. -/
def JVal.isDiscarded : JVal → Bool
  | .jdiscarded => true
  | _ => false

/-- Embedding of `packet.is_array()`. -/
def JVal.isArray : JVal → Bool
  | .jarr _ => true
  | _ => false

/-- Embedding of `build_error`: assigns `type`, `error` and `message`
into the (empty) argument object, in that insertion order. -/
def build_error (name message : String) : JVal :=
  .jobj [("type", .jstr "error"), ("error", .jstr name), ("message", .jstr message)]

/-- Embedding of `build_response` with no payload arguments, as used by
`reference_items`. -/
def build_response (command : String) : JVal :=
  .jobj [("type", .jstr "response"), ("command", .jstr command)]

/-- Embedding of `build_greeting`. -/
def build_greeting : JVal :=
  .jobj [("type", .jstr "greeting"), ("version", .jint 0),
    ("commands", .jarr [.jstr "list_scopes", .jstr "list_items",
      .jstr "reference_items", .jstr "query_interval",
      .jstr "get_simulation_status", .jstr "run_simulation",
      .jstr "pause_simulation"]),
    ("events", .jarr [.jstr "simulation_paused", .jstr "simulation_finished"]),
    ("features", .jobj [("item_values_encoding", .jarr [.jstr "base64(u32)"])])]

/-- Embedding of `parse_packet`: `.inl` carries the error reply, `.inr`
the packet type and the packet with `type` erased; `none` models the
exception thrown by `get_to` when the `type` value is not a string. -/
def parse_packet (packet : JVal) : Option (JVal ⊕ (String × JVal)) :=
  if packet.isDiscarded then
    some (.inl (build_error "invalid_json" "The received JSON could not be parsed."))
  else
    match packet.get "type" with
    | none => some (.inl (build_error "invalid_packet"
        "The received packet does not contain a `type` key."))
    | some (.jstr t) => some (.inr (t, packet.eraseKey "type"))
    | some _ => none

/-- Embedding of the nlohmann comparison `value == 0` (an integer
literal; the model has no floating-point numbers, which the protocol
never sends). -/
def jeqInt (v : JVal) (m : Int) : Bool :=
  match v with
  | .jint n => n == m
  | _ => false

/-- Embedding of `parse_greeting`: `some` carries the error reply,
`none` means the greeting was accepted (only `version: 0` is). -/
def parse_greeting (packet : JVal) : Option JVal :=
  match packet.get "version" with
  | none => some (build_error "invalid_greeting"
      "The greeting does not contain a `version` key.")
  | some v =>
    if jeqInt v 0 then none
    else some (build_error "unknown_version" "The client version is not 0.")

/-- Embedding of `process_packet`, with the command dispatcher (the code
after the greeting gate, which never writes `got_greeting`) abstracted
as `dispatch`.  The returned pair is the reply packet and the new value
of `got_greeting`; `none` models an exception escaping the handler. -/
def process_packet (dispatch : JVal → JVal) (got_greeting : Bool) (packet : JVal) :
    Option (JVal × Bool) :=
  match parse_packet packet with
  | none => none
  | some (.inl err) => some (err, got_greeting)
  | some (.inr (t, rest)) =>
    if t = "greeting" then
      match parse_greeting rest with
      | some err => some (err, got_greeting)
      | none => some (build_greeting, true)
    else if t = "command" then
      if got_greeting = false then
        some (build_error "protocol_error"
          "A command was received before greetings were exchanged.", got_greeting)
      else some (dispatch rest, got_greeting)
    else
      some (build_error "invalid_packet"
        "The received packet has an unrecognized type.", got_greeting)

/-! ## Reference management (`reference_items`)

`debug_items.table` maps item names to their part vectors.  Only the
fields the `reference_items` path reads are modelled: the item type
(memory or node), the bit width, the depth for memories, and the
optional outline handle.  The `chunk_t *curr` backing pointer of a part
is identified by the item's name. -/

structure DebugItemPart where
  memory : Bool
  width : Nat
  depth : Nat
  outline : Option Nat

/-- The `debug_items.table` map (association list in name order). -/
abbrev DebugItems := List (String × List DebugItemPart)

/-- Modelled from the spec: `debug_items.is_memory(name)` of the missing
`cxxrtl.h` header, i.e. whether the named item is a memory. -/
def isMemoryItem (table : DebugItems) (name : String) : Bool :=
  match table.lookup name with
  | some (part :: _) => part.memory
  | _ => false

/-- Embedding of `json_desig[k].get<size_t>()`: nlohmann stores the
number as a signed 64-bit integer and converts by `static_cast`. -/
def intToSize (n : Int) : Nat :=
  (n % (2 ^ 64)).toNat

/-- Embedding of the designator loop of `parse_command_reference_items`:
either the first error reply, or the designator triples in order, with
`(first_index, last_index) = (0, 0)` for single-element designators. -/
def parse_designators (table : DebugItems) : List JVal → JVal ⊕ List (String × Nat × Nat)
  | [] => .inr []
  | d :: rest =>
    match d with
    | .jarr [.jstr name] =>
      if (table.lookup name).isSome = false then
        .inl (build_error "item_not_found"
          ("The item `" ++ name ++ "` is not present in the simulation."))
      else if isMemoryItem table name then
        .inl (build_error "wrong_item_type"
          ("The item `" ++ name ++ "` is referenced as a node but is a memory."))
      else
        match parse_designators table rest with
        | .inl e => .inl e
        | .inr ds => .inr ((name, 0, 0) :: ds)
    | .jarr [.jstr name, .jint i, .jint j] =>
      if (table.lookup name).isSome = false then
        .inl (build_error "item_not_found"
          ("The item `" ++ name ++ "` is not present in the simulation."))
      else if isMemoryItem table name = false then
        .inl (build_error "wrong_item_type"
          ("The item `" ++ name ++ "` is referenced as a memory but is a node."))
      else
        match parse_designators table rest with
        | .inl e => .inl e
        | .inr ds => .inr ((name, intToSize i, intToSize j) :: ds)
    | _ =>
      .inl (build_error "invalid_args"
        "The `reference_items` command requires the item designator to be an array of a single string, or a string and two integers.")

/-- Embedding of `parse_command_reference_items` (acting on the packet
with `type` and `command` already erased): `.inl` is the error reply,
`.inr` is `(reference, erase, designators)`; `none` models the exception
thrown by `packet.at("reference").get<std::string>()` when the value is
not a string (in particular when it is `null`, which the validity guard
lets through). -/
def parse_command_reference_items (table : DebugItems) (packet : JVal) :
    Option (JVal ⊕ (String × Bool × List (String × Nat × Nat))) :=
  match packet.get "reference" with
  | none => some (.inl (build_error "invalid_args"
      "The `reference_items` command requires the `reference` argument to be a non-empty string."))
  | some refv =>
    if (refv.isNull || (match refv with | .jstr s => !(s == "") | _ => false)) = false then
      some (.inl (build_error "invalid_args"
        "The `reference_items` command requires the `reference` argument to be a non-empty string."))
    else
      match refv with
      | .jstr reference =>
        let packet1 := packet.eraseKey "reference"
        match packet1.get "items" with
        | none => some (.inl (build_error "invalid_args"
            "The `reference_items` command requires the `items` argument to be an array or null."))
        | some iv =>
          if (iv.isNull || iv.isArray) = false then
            some (.inl (build_error "invalid_args"
              "The `reference_items` command requires the `items` argument to be an array or null."))
          else
            let erase := iv.isNull
            let elems := match iv with | .jarr l => l | _ => []
            match parse_designators table elems with
            | .inl e => some (.inl e)
            | .inr ds =>
              let packet2 := packet1.eraseKey "items"
              if packet2.isEmptyObj = false then
                some (.inl (build_error "invalid_args"
                  "The `reference_items` command takes no arguments besides `reference` and `items`."))
              else some (.inr (reference, erase, ds))
      | _ => none

/-- A `variable` record of a server `reference`; the `chunk_t *data`
pointer is identified by the item name. -/
structure RefVariable where
  width : Nat
  chunks : Nat
  data : String
  first_index : Nat
  last_index : Nat

/-- A server `reference`: variables in designator order plus the set of
outline handles (insertion-ordered, duplicate-free). -/
structure Reference where
  vars : List RefVariable
  outlines : List Nat

/-- Embedding of `references.erase(name)`. -/
def refsErase (refs : List (String × Reference)) (name : String) :
    List (String × Reference) :=
  refs.filter (fun r => !(r.1 == name))

/-- Embedding of `reference.outlines.insert(...)` (an `unordered_set`). -/
def insertOutline (outlines : List Nat) (o : Nat) : List Nat :=
  if o ∈ outlines then outlines else outlines ++ [o]

/-- One iteration of the designator loop of `perform_reference_items`:
looks the item up (`debug_items.at` throws on a miss), requires a single
part (`CXXRTL_ASSERT`), checks the index window against the depth
(`CXXRTL_ASSERT`), and appends the `variable`; `none` models the failed
assertion or exception. -/
def addDesignator (table : DebugItems) (ref : Reference)
    (d : String × Nat × Nat) : Option Reference :=
  match table.lookup d.1 with
  | some [part] =>
    if d.2.1 < part.depth && d.2.2 < part.depth then
      some ⟨ref.vars ++
          [⟨part.width, (part.width + 32 - 1) / 32, d.1, d.2.1, d.2.2⟩],
        match part.outline with
        | some o => insertOutline ref.outlines o
        | none => ref.outlines⟩
    else none
  | _ => none

/-- Embedding of `perform_reference_items`: erase any existing reference
of the name; if not erasing, rebuild it from the designators. -/
def perform_reference_items (table : DebugItems) (refs : List (String × Reference))
    (name : String) (erase : Bool) (designators : List (String × Nat × Nat)) :
    Option (List (String × Reference)) :=
  let refs1 := refsErase refs name
  if erase then some refs1
  else
    match designators.foldlM (addDesignator table) ⟨[], []⟩ with
    | none => none
    | some ref => some ((name, ref) :: refs1)

/-- The `reference_items` branch of `process_packet`: parse, then
perform, then the empty response. -/
def reference_items_command (table : DebugItems) (refs : List (String × Reference))
    (packet : JVal) : Option (JVal × List (String × Reference)) :=
  match parse_command_reference_items table packet with
  | none => none
  | some (.inl err) => some (err, refs)
  | some (.inr (name, erase, ds)) =>
    match perform_reference_items table refs name erase ds with
    | none => none
    | some refs2 => some (build_response "reference_items", refs2)

/-- Characterisation used in the statements below: the `variable` that a
designator contributes when `perform_reference_items` succeeds. -/
def varOf (table : DebugItems) (d : String × Nat × Nat) : Option RefVariable :=
  match table.lookup d.1 with
  | some [part] =>
    if d.2.1 < part.depth && d.2.2 < part.depth then
      some ⟨part.width, (part.width + 32 - 1) / 32, d.1, d.2.1, d.2.2⟩
    else none
  | _ => none

/-! ## Scope listing (`perform_list_scopes`)

Item names are hierarchical paths separated by single spaces, modelled
as `List Char`.  The scope of an item name is everything before its last
space (`rfind(' ')` / `substr(0, pos)`), defaulting to the empty root
path for names without a space; the same operation yields the parent of
a scope path. -/

/-- Embedding of `pos = s.rfind(' '); pos == npos ? "" : s.substr(0, pos)`:
the prefix before the last space, or empty when there is no space. -/
def upToLastSpace (s : List Char) : List Char :=
  (((s.reverse).dropWhile (fun c => !(c == ' '))).drop 1).reverse

/-- The filter of `perform_list_scopes`:
`all || (scope.empty() && item_scope.find(' ') == npos) ||
(!scope.empty() && item_scope.find(' ') != npos &&
 item_scope.substr(0, item_scope.rfind(' ')) == scope)`. -/
def scopeCond (all : Bool) (scope isc : List Char) : Bool :=
  all || (scope.isEmpty && !(isc.contains ' ')) ||
    (!scope.isEmpty && isc.contains ' ' && upToLastSpace isc == scope)

/-- Embedding of `scopes[item_scope] = ...` on the `std::map` result,
tracked as the insertion-ordered list of keys. -/
def insertScope (acc : List (List Char)) (x : List Char) : List (List Char) :=
  if x ∈ acc then acc else acc ++ [x]

/-- The loop of `perform_list_scopes`: `cs` is `current_scope` (runs of
items sharing a scope are collapsed), `acc` the result keys so far. -/
def listScopesGo (all : Bool) (scope : List Char) (cs : List Char)
    (acc : List (List Char)) : List (List Char) → List (List Char)
  | [] => acc
  | item :: rest =>
    if upToLastSpace item == cs then listScopesGo all scope cs acc rest
    else
      listScopesGo all scope (upToLastSpace item)
        (if scopeCond all scope (upToLastSpace item) then
          insertScope acc (upToLastSpace item)
        else acc) rest

/-- Embedding of `perform_list_scopes` over the item-name table (in
table iteration order), returning the scope keys of the reply;
`current_scope` starts as the sentinel `" invalid"`. -/
def perform_list_scopes (all : Bool) (scope : List Char)
    (items : List (List Char)) : List (List Char) :=
  listScopesGo all scope " invalid".toList [] items

/-! ## Replay player and `perform_query_interval`

The replay `player` comes from `cxxrtl_replay.h`, which is not part of
this repository; its operations are modelled from the spec.  Modelled
from the spec: the spool is an append-only timeline of samples tagged
with weakly monotonic timestamps; the player's replay position is an
index into it; `current_time` and `get_next_time` inspect the
timestamps at and after the position; `replay` steps one sample
forward, applying its delta — so the item values readable after
replaying to index `i` (what `toplevel.eval` plus the reference readout
produce there) are a pure function of `i`, recorded as the sample's
`vals` field.  The diagnostics recorded with sample `i` are its `diags`
field (collected by `replay` when a diagnostics sink is passed), and
`evalDiags` are the live diagnostics the re-evaluation emits at that
position (captured by the performer when requested);
`rewind_to_or_before t` repositions at the last recorded sample whose
timestamp is `<= t`, failing (`assert(rewound)`) when there is none. -/

structure SpoolSample (α : Type) where
  stime : Nat
  vals : α
  diags : List String
  evalDiags : List String

instance {α : Type} [Inhabited α] : Inhabited (SpoolSample α) :=
  ⟨⟨0, default, [], []⟩⟩

/-- The sample at a replay position (junk default out of range; all
accesses below are guarded by `get?`-based bounds). -/
def sampleAt {α : Type} [Inhabited α] (l : List (SpoolSample α)) (i : Nat) :
    SpoolSample α :=
  l.getD i default

/-- Modelled from the spec: `player.current_time()`. -/
def currentTime {α : Type} [Inhabited α] (l : List (SpoolSample α)) (pos : Nat) :
    Nat :=
  (sampleAt l pos).stime

/-- Modelled from the spec: `player.get_next_time(timestamp)`. -/
def getNextTime {α : Type} (l : List (SpoolSample α)) (pos : Nat) : Option Nat :=
  (l.get? (pos + 1)).map (fun s => s.stime)

/-- Modelled from the spec: the position `rewind_to_or_before t` lands
on — the last index whose timestamp is `<= t` — or `none` when even the
first sample is later than `t`. -/
def rewindIdx {α : Type} : List (SpoolSample α) → Nat → Option Nat
  | [], _ => none
  | s :: rest, t =>
    if s.stime ≤ t then
      match rewindIdx rest t with
      | some i => some (i + 1)
      | none => some 0
    else none

/-- Embedding of the collapse loop `while (player.get_next_time(ts) &&
player.current_time() == ts) player.replay(...)`: returns the final
position and the diagnostics collected by the replays. -/
def collapseFrom {α : Type} [Inhabited α] (l : List (SpoolSample α)) (pos : Nat) :
    Nat × List String :=
  match h : l.get? (pos + 1) with
  | some s =>
    if s.stime = (sampleAt l pos).stime then
      let r := collapseFrom l (pos + 1)
      (r.1, s.diags ++ r.2)
    else (pos, [])
  | none => (pos, [])
termination_by l.length - pos
decreasing_by
  have hlt : pos + 1 < l.length := (List.get?_eq_some.mp h).1
  omega

/-- The position an iteration of the query loop emits from. -/
def collapsedPos {α : Type} [Inhabited α] (l : List (SpoolSample α))
    (collapse : Bool) (pos : Nat) : Nat :=
  if collapse then (collapseFrom l pos).1 else pos

/-- One output element of the `samples` array: the `time` key, the
`diagnostics` array when requested, and the encoded item values. -/
structure OutSample (α : Type) where
  time : Nat
  diagnostics : Option (List String)
  item_values : α

/-- The sample emitted by one iteration of the query loop, where `acc`
holds the diagnostics accumulated before the iteration. -/
def mkOut {α : Type} [Inhabited α] (l : List (SpoolSample α))
    (collapse emitDiags : Bool) (pos : Nat) (acc : List String) : OutSample α :=
  let p := collapsedPos l collapse pos
  let acc1 := if emitDiags then
      acc ++ (if collapse then (collapseFrom l pos).2 else [])
    else acc
  ⟨(sampleAt l p).stime,
    if emitDiags then some (acc1 ++ (sampleAt l p).evalDiags) else none,
    (sampleAt l p).vals⟩

theorem collapseFrom_fst_ge {α : Type} [Inhabited α] (l : List (SpoolSample α))
    (pos : Nat) : pos ≤ (collapseFrom l pos).1 := by
  induction pos using collapseFrom.induct l with
  | case1 pos s h hs ih =>
    rw [collapseFrom, h]
    dsimp only
    rw [if_pos hs]
    exact le_trans (Nat.le_succ pos) ih
  | case2 pos s h hs =>
    rw [collapseFrom, h]
    dsimp only
    rw [if_neg hs]
  | case3 pos h =>
    rw [collapseFrom, h]

/-- Embedding of the emit/step loop of `perform_query_interval`: emit a
sample at the (collapsed) position, stop when there is no next sample or
it is past `end`, otherwise clear the accumulator and replay one step.
Returns the `samples` array and the final replay position. -/
def queryLoop {α : Type} [Inhabited α] (l : List (SpoolSample α)) (endT : Nat)
    (collapse emitDiags : Bool) (pos : Nat) (acc : List String) :
    List (OutSample α) × Nat :=
  match h : l.get? (collapsedPos l collapse pos + 1) with
  | some nxt =>
    if endT < nxt.stime then
      ([mkOut l collapse emitDiags pos acc], collapsedPos l collapse pos)
    else
      let rest := queryLoop l endT collapse emitDiags
        (collapsedPos l collapse pos + 1) (if emitDiags then nxt.diags else [])
      (mkOut l collapse emitDiags pos acc :: rest.1, rest.2)
  | none => ([mkOut l collapse emitDiags pos acc], collapsedPos l collapse pos)
termination_by l.length - pos
decreasing_by
  have hlt : collapsedPos l collapse pos + 1 < l.length :=
    (List.get?_eq_some.mp h).1
  have hge : pos ≤ collapsedPos l collapse pos := by
    unfold collapsedPos
    split
    · exact collapseFrom_fst_ge l pos
    · exact Nat.le_refl pos
  omega

/-- Embedding of `perform_query_interval` (with the readout abstracted
into the per-position `vals`): the fast path skips the rewind when
`collapse && !emit_diagnostics && current_time() == begin && get_next_time(ts)
&& ts > begin`; otherwise rewind to the last sample at or before
`begin` (`none` models the failed `assert(rewound)`). -/
def perform_query_interval {α : Type} [Inhabited α] (l : List (SpoolSample α))
    (pos : Nat) (beginT endT : Nat) (collapse emitDiags : Bool) :
    Option (List (OutSample α) × Nat) :=
  if (collapse && !emitDiags && (currentTime l pos == beginT) &&
      (match getNextTime l pos with
        | some t => decide (beginT < t)
        | none => false)) = true then
    some (queryLoop l endT collapse emitDiags pos [])
  else
    match rewindIdx l beginT with
    | some r => some (queryLoop l endT collapse emitDiags r [])
    | none => none

/-! ## Agent/server status coordination

The shared `agent_server_state` record, and a small-step system over it.
Each `Step` is one mutex-protected region of the source between
condition-variable waits: the agent's regions come from `agent::step`,
`agent::advance` and the destructor, the server's from
`perform_run_simulation` and `perform_pause_simulation`.  `AgentLoc` and
`ServerLoc` are the control locations of the two threads; an agent
blocked in `condvar.wait` sits at `stepPaused`/`advPaused`, and the
destructor can only run while the agent is not inside an operation
(both run on the simulation thread).  Simulated times are `Nat`; after
`start_debugging` the initial `run_until_time` is `time()`, i.e. zero. -/

inductive SimulationStatus where
  | initializing
  | running
  | paused
  | finished
deriving DecidableEq, Repr

inductive PauseReason where
  | time
  | diagnostic
deriving DecidableEq, Repr

structure SharedState where
  status : SimulationStatus
  latest_time : Nat
  next_sample_time : Nat
  run_until_time : Nat
  run_until_diagnostics : Nat
  cause : PauseReason
  unpause : Bool
deriving DecidableEq, Repr

inductive AgentLoc where
  | idle
  | stepCheck (emitted : Nat)
  | stepPaused
  | advPaused (advanced : Nat)
  | dead
deriving DecidableEq, Repr

inductive ServerLoc where
  | idle
  | waitUnpause
  | waitPause
deriving DecidableEq, Repr

structure Sys where
  sh : SharedState
  ag : AgentLoc
  sv : ServerLoc
deriving DecidableEq, Repr

/-- The interleaved small-step relation of the agent and the server. -/
inductive Step : Sys → Sys → Prop where
  /-- First `agent::step`: full capture, `status = running`, then the
  diagnostics check with the mask `emitted` by this step. -/
  | step_begin_first (s : Sys) (emitted : Nat) :
      s.ag = .idle → s.sh.status = .initializing →
      Step s { s with sh := { s.sh with status := .running },
                      ag := .stepCheck emitted }
  /-- Subsequent `agent::step`: incremental recording, no status write. -/
  | step_begin_next (s : Sys) (emitted : Nat) :
      s.ag = .idle → s.sh.status ≠ .initializing →
      Step s { s with ag := .stepCheck emitted }
  /-- End of `agent::step` when a diagnostic matches
  `run_until_diagnostics`: flush, publish `next_sample_time`, set
  `paused` with cause `diagnostic`, and wait for `unpause`. -/
  | step_check_pause (s : Sys) (emitted : Nat) :
      s.ag = .stepCheck emitted →
      s.sh.run_until_diagnostics &&& emitted ≠ 0 →
      Step s { s with
        sh := { s.sh with next_sample_time := s.sh.latest_time,
                          status := .paused, cause := .diagnostic },
        ag := .stepPaused }
  /-- End of `agent::step` without a matching diagnostic. -/
  | step_check_done (s : Sys) (emitted : Nat) :
      s.ag = .stepCheck emitted →
      s.sh.run_until_diagnostics &&& emitted = 0 →
      Step s { s with ag := .idle }
  /-- The diagnostic pause in `agent::step` resumes: clear `unpause`,
  set `running`. -/
  | step_resume (s : Sys) :
      s.ag = .stepPaused → s.sh.unpause = true →
      Step s { s with
        sh := { s.sh with unpause := false, status := .running },
        ag := .idle }
  /-- `agent::advance` that stays at or before `run_until_time`. -/
  | advance_no_pause (s : Sys) (delta : Nat) :
      s.ag = .idle → s.sh.status ≠ .initializing →
      s.sh.latest_time + delta ≤ s.sh.run_until_time →
      Step s { s with sh := { s.sh with latest_time := s.sh.latest_time + delta } }
  /-- `agent::advance` crossing `run_until_time`: flush, set `paused`
  with cause `time`, wait for `unpause`. -/
  | advance_pause (s : Sys) (delta : Nat) :
      s.ag = .idle → s.sh.status ≠ .initializing →
      s.sh.run_until_time < s.sh.latest_time + delta →
      Step s { s with
        sh := { s.sh with next_sample_time := s.sh.latest_time + delta,
                          status := .paused, cause := .time },
        ag := .advPaused (s.sh.latest_time + delta) }
  /-- A degenerate resume in `agent::advance`: `unpause` was set but the
  advanced time is still past `run_until_time`, so the loop pauses
  again without ever leaving `paused`. -/
  | advance_repause (s : Sys) (advanced : Nat) :
      s.ag = .advPaused advanced → s.sh.unpause = true →
      s.sh.run_until_time < advanced →
      Step s { s with
        sh := { s.sh with unpause := false, status := .paused,
                          next_sample_time := advanced, cause := .time } }
  /-- The time pause in `agent::advance` resumes: clear `unpause`, set
  `running`, record the advanced time. -/
  | advance_resume (s : Sys) (advanced : Nat) :
      s.ag = .advPaused advanced → s.sh.unpause = true →
      advanced ≤ s.sh.run_until_time →
      Step s { s with
        sh := { s.sh with unpause := false, status := .running,
                          latest_time := advanced },
        ag := .idle }
  /-- `agent::~agent`: set `finished` and join the server thread. -/
  | destroy (s : Sys) :
      s.ag = .idle →
      Step s { s with sh := { s.sh with status := .finished }, ag := .dead }
  /-- `perform_run_simulation` with status `paused`: set the run bounds,
  set `unpause`, then wait until the agent clears it. -/
  | run_simulation_ok (s : Sys) (until_time until_diagnostics : Nat) :
      s.sv = .idle → s.sh.status = .paused →
      Step s { s with
        sh := { s.sh with run_until_time := until_time,
                          run_until_diagnostics := until_diagnostics,
                          unpause := true },
        sv := .waitUnpause }
  /-- `perform_run_simulation` with any other status: no effect
  (`invalid_status` reply). -/
  | run_simulation_fail (s : Sys) :
      s.sv = .idle → s.sh.status ≠ .paused → Step s s
  /-- `perform_run_simulation` returns once the agent cleared `unpause`. -/
  | run_simulation_done (s : Sys) :
      s.sv = .waitUnpause → s.sh.unpause = false →
      Step s { s with sv := .idle }
  /-- `perform_pause_simulation`: set `run_until_time = time()` and wait
  for the status to leave `running`. -/
  | pause_simulation_begin (s : Sys) :
      s.sv = .idle →
      Step s { s with sh := { s.sh with run_until_time := 0 }, sv := .waitPause }
  /-- `perform_pause_simulation` returns. -/
  | pause_simulation_done (s : Sys) :
      s.sv = .waitPause → s.sh.status ≠ .running →
      Step s { s with sv := .idle }

/-- The state right after `agent::start_debugging`. -/
def initSys : Sys :=
  { sh := { status := .initializing, latest_time := 0, next_sample_time := 0,
            run_until_time := 0, run_until_diagnostics := 0,
            cause := .time, unpause := false },
    ag := .idle, sv := .idle }

/-- States reachable from the initial state. -/
def Reachable (s : Sys) : Prop :=
  Relation.ReflTransGen Step initSys s

/-- The state after the first `agent::step` from the initial state. -/
def firstStepSys : Sys :=
  { initSys with sh := { initSys.sh with status := .running }, ag := .stepCheck 0 }

/-- The state after destroying a never-stepped agent. -/
def destroyedSys : Sys :=
  { initSys with sh := { initSys.sh with status := .finished }, ag := .dead }

/-- The status values consistent with each agent control location. -/
def agOK : AgentLoc → SimulationStatus → Prop
  | .idle, st => st = .initializing ∨ st = .running
  | .stepCheck _, st => st = .running
  | .stepPaused, st => st = .paused
  | .advPaused _, st => st = .paused
  | .dead, st => st = .finished

/-- Invariant tying the agent's control location to the shared status. -/
def StatusInv (s : Sys) : Prop :=
  agOK s.ag s.sh.status

/-- The transition lattice of the claim:
`initializing → running → paused ⇄ running → finished`. -/
def allowedTransition (a b : SimulationStatus) : Prop :=
  (a = .initializing ∧ b = .running) ∨ (a = .running ∧ b = .paused) ∨
    (a = .paused ∧ b = .running) ∨ (a = .running ∧ b = .finished)

/-- The lattice the code actually satisfies: destroying the agent before
its first step additionally yields `initializing → finished`. -/
def allowedTransitionAmended (a b : SimulationStatus) : Prop :=
  allowedTransition a b ∨ (a = .initializing ∧ b = .finished)

end CxxrtlServer

namespace CxxrtlServer

/-! ## Theorems -/

theorem recvSplit_frame {p : List Nat} (rest : List Nat) (hp : 0 ∉ p) :
    recvSplit (p ++ 0 :: rest) = some (p, rest) := by
  induction p with
  | nil => simp [recvSplit]
  | cons b bs ih =>
    have hb : b ≠ 0 := by
      intro h; exact hp (by simp [h])
    have hbs : 0 ∉ bs := fun h => hp (List.mem_cons_of_mem _ h)
    simp [recvSplit, hb, ih hbs]

theorem recvSplit_none {buf : List Nat} (h : 0 ∉ buf) : recvSplit buf = none := by
  induction buf with
  | nil => rfl
  | cons b bs ih =>
    have hb : b ≠ 0 := by
      intro hb; exact h (by simp [hb])
    have hbs : 0 ∉ bs := fun hm => h (List.mem_cons_of_mem _ hm)
    simp [recvSplit, hb, ih hbs]

theorem sendAll_eq_append (packets : List (List Nat)) :
    ∀ buf, sendAll buf packets = buf ++ frameAll packets := by
  induction packets with
  | nil => intro buf; simp [sendAll, frameAll]
  | cons p ps ih =>
    intro buf
    simp only [sendAll, List.foldl_cons, frameAll, List.foldr_cons]
    have := ih (linkSend buf p)
    simp only [sendAll] at this
    rw [this]
    simp [linkSend, frameAll]

/-- C5: on a receive buffer `B1 ++ NUL ++ ... ++ Bn ++ NUL ++ T` with
NUL-free `Bi` and `T`, `n` successive `recv` calls return `B1, ..., Bn`
in order and leave exactly `T` buffered; and sending `p1, ..., pn`
appends `p1 ++ NUL ++ ... ++ pn ++ NUL` to the send buffer, so framing
followed by deframing is the identity on NUL-free packets. -/
theorem framing_roundtrip (packets : List (List Nat)) (tail : List Nat)
    (hp : ∀ p ∈ packets, 0 ∉ p) (ht : 0 ∉ tail) :
    recvAll packets.length (frameAll packets ++ tail) = (packets, tail) ∧
      ∀ buf, sendAll buf packets = buf ++ frameAll packets := by
  refine ⟨?_, sendAll_eq_append packets⟩
  induction packets with
  | nil => simp [recvAll, frameAll, linkRecv, recvSplit_none ht]
  | cons p ps ih =>
    have hp0 : 0 ∉ p := hp p (List.mem_cons_self _ _)
    have hps : ∀ q ∈ ps, 0 ∉ q := fun q hq => hp q (List.mem_cons_of_mem _ hq)
    have hsplit : recvSplit (frameAll (p :: ps) ++ tail) = some (p, frameAll ps ++ tail) := by
      have : frameAll (p :: ps) ++ tail = p ++ 0 :: (frameAll ps ++ tail) := by
        simp [frameAll]
      rw [this]
      exact recvSplit_frame _ hp0
    simp only [List.length_cons, recvAll, linkRecv, hsplit, ih hps]

/-- C5 witness: concrete instance with two packets and a nonempty tail. -/
theorem framing_roundtrip_witness :
    recvAll 2 (frameAll [[1], [2, 3]] ++ [4]) = ([[1], [2, 3]], [4]) ∧
      ∀ buf, sendAll buf [[1], [2, 3]] = buf ++ frameAll [[1], [2, 3]] :=
  framing_roundtrip [[1], [2, 3]] [4] (by decide) (by decide)

/-- C10: a receive buffer beginning with a NUL byte (an empty frame) is
consumed by `recv`, which returns the empty string, the same value it
returns when no complete packet is buffered; consequently the server's
drain loop sends no response for the empty frame and stops draining the
packets still in the buffer until the next poll iteration. -/
theorem empty_frame_stops_drain {σ : Type} (parse : List Nat → JVal)
    (process : σ → JVal → JVal × σ) (st : σ) (rest : List Nat)
    (buf : List Nat) (hbuf : 0 ∉ buf) :
    linkRecv (0 :: rest) = ([], rest) ∧
      linkRecv buf = ([], buf) ∧
      drainLoop parse process st (0 :: rest) = ([], rest, st) := by
  refine ⟨rfl, ?_, ?_⟩
  · simp [linkRecv, recvSplit_none hbuf]
  · rw [drainLoop]
    simp [recvSplit]

/-- C2 (failing input): on the three-byte input `00 80 00` — which arises
whenever an item value chunk contains a byte `>= 0x80` — `base64_encode`
as written, reading bytes through a signed `char`, sign-extends the
middle byte and emits `"/4AA"`, whereas the standard Base64 encoding the
spec describes is `"AIAA"`; so decoding the produced string does not
return the input bytes. -/
theorem base64_signed_char_divergence :
    base64_encode [0, 128, 0] = "/4AA".toList ∧
      base64_standard [0, 128, 0] = "AIAA".toList ∧
      base64_encode [0, 128, 0] ≠ base64_standard [0, 128, 0] :=
  ⟨by decide, by decide, by decide⟩

theorem getLastD_set_last : ∀ (l : List Nat) (x d : Nat), l ≠ [] →
    (l.set (l.length - 1) x).getLastD d = x := by
  intro l
  induction l with
  | nil => intro x d h; exact absurd rfl h
  | cons a as ih =>
    intro x d _
    cases as with
    | nil => rfl
    | cons b bs =>
      have hlen : (a :: b :: bs).length - 1 = ((b :: bs).length - 1) + 1 := by
        simp
      rw [hlen]
      simp only [List.set]
      rw [List.getLastD_cons]
      exact ih x a (by simp)

theorem readChunks_length (v : QueryVariable) (i : Nat) :
    (readChunks v i).length = v.chunks := by
  simp [readChunks]

/-- C3: for every variable read out by `query_interval` whose width is
not a multiple of 32 bits, the last chunk of each emitted index block
has its top `32 - width % 32` bits cleared (its value is below
`2 ^ (width % 32)`) no matter what padding junk the backing store held,
while blocks of variables whose width is a multiple of 32 are copied
unchanged. -/
theorem mask_law (v : QueryVariable) (hchunks : v.chunks = (v.width + 31) / 32)
    (hw : 0 < v.width) :
    ∀ i ∈ indexSeq v.first_index v.last_index,
      (v.width % 32 ≠ 0 →
        (maskBlock v.width (readChunks v i)).getLastD 0 < 2 ^ (v.width % 32)) ∧
      (v.width % 32 = 0 → maskBlock v.width (readChunks v i) = readChunks v i) := by
  intro i _
  constructor
  · intro hmod
    have hchunks1 : 1 ≤ v.chunks := by
      rw [hchunks]
      have h32 : (0 : Nat) < 32 := by norm_num
      rw [Nat.le_div_iff_mul_le h32]
      omega
    have hne : readChunks v i ≠ [] := by
      intro hcontra
      have := congrArg List.length hcontra
      rw [readChunks_length] at this
      simp at this
      omega
    rw [maskBlock, if_neg hmod, getLastD_set_last _ _ _ hne]
    set k := v.width % 32 with hk
    have hklt : k < 32 := Nat.mod_lt _ (by norm_num)
    have hmask : (2 ^ 32 - 1) >>> (32 - k) < 2 ^ k := by
      rw [Nat.shiftRight_eq_div_pow]
      rw [Nat.div_lt_iff_lt_mul (Nat.pos_pow_of_pos _ (by norm_num))]
      have : (2 : Nat) ^ k * 2 ^ (32 - k) = 2 ^ 32 := by
        rw [← pow_add]
        congr 1
        omega
      omega
    exact lt_of_le_of_lt Nat.and_le_right hmask
  · intro hmod
    rw [maskBlock, if_pos hmod]

/-- C3 witness: a 5-bit variable whose backing chunk is all ones; the
emitted last (and only) chunk is below `2 ^ 5`. -/
theorem mask_law_witness :
    (maskBlock 5 (readChunks ⟨5, 1, [4294967295], 0, 0⟩ 0)).getLastD 0 <
      2 ^ (5 % 32) :=
  ((mask_law ⟨5, 1, [4294967295], 0, 0⟩ (by decide) (by decide)) 0
    (by decide)).1 (by decide)

/-- C10 witness: concrete drain of a buffer holding an empty frame
followed by a complete packet. -/
theorem empty_frame_stops_drain_witness :
    linkRecv (0 :: [7, 0]) = ([], [7, 0]) ∧
      linkRecv [5, 6] = ([], [5, 6]) ∧
      drainLoop (fun _ => JVal.jbool true) (fun (n : Nat) j => (j, n + 1)) 0
        (0 :: [7, 0]) = ([], [7, 0], 0) :=
  empty_frame_stops_drain (fun _ => JVal.jbool true) (fun n j => (j, n + 1)) 0
    [7, 0] [5, 6] (by decide)

/-! ### Association-list helpers -/

theorem lookup_filterKey_ne {β : Type} (k k' : String) (h : k' ≠ k) :
    ∀ fields : List (String × β),
      (fields.filter (fun f => !(f.1 == k))).lookup k' = fields.lookup k' := by
  intro fields
  induction fields with
  | nil => rfl
  | cons f fs ih =>
    rw [List.filter_cons]
    by_cases hf : f.1 = k
    · have hcond : (!(f.1 == k)) = false := by simp [hf]
      rw [hcond]
      simp only [Bool.false_eq_true, if_false]
      rw [ih, List.lookup]
      have hne : (k' == f.1) = false := by
        rw [hf]
        exact beq_eq_false_iff_ne.mpr h
      rw [hne]
    · have hcond : (!(f.1 == k)) = true := by simp [hf]
      rw [hcond]
      simp only [if_true]
      by_cases hk : k' = f.1
      · simp [List.lookup, hk]
      · simp only [List.lookup, beq_eq_false_iff_ne.mpr hk, ih]

theorem lookup_filterKey_self {β : Type} (k : String) :
    ∀ l : List (String × β), (l.filter (fun f => !(f.1 == k))).lookup k = none := by
  intro l
  induction l with
  | nil => rfl
  | cons f fs ih =>
    rw [List.filter_cons]
    by_cases hf : f.1 = k
    · rw [hf]
      simp only [beq_self_eq_true, Bool.not_true, Bool.false_eq_true, if_false]
      exact ih
    · have hcond : (!(f.1 == k)) = true := by simp [hf]
      rw [hcond]
      simp only [if_true, List.lookup]
      have : (k == f.1) = false := beq_eq_false_iff_ne.mpr (fun hkf => hf hkf.symm)
      rw [this]
      exact ih

theorem get_eraseKey_ne (p : JVal) (k k' : String) (h : k' ≠ k) :
    (p.eraseKey k).get k' = p.get k' := by
  cases p <;> try rfl
  exact lookup_filterKey_ne k k' h _

/-! ### C4: greeting gating -/

theorem jeqInt_zero_eq_false {v : JVal} (h : v ≠ .jint 0) : jeqInt v 0 = false := by
  cases v <;> simp [jeqInt]
  intro h0
  exact absurd (by rw [h0]) h

/-- C4: with the greeting gate closed (`got_greeting = false`), every
packet of type `command` is answered with an error whose code is
`protocol_error`; and a packet whose `version` key is missing or not `0`
leaves the gate closed no matter what its type is (in particular a
greeting with a missing or wrong version is not successful). -/
theorem greeting_gate (dispatch : JVal → JVal) (packet : JVal) :
    (packet.get "type" = some (.jstr "command") →
      process_packet dispatch false packet =
        some (build_error "protocol_error"
          "A command was received before greetings were exchanged.", false)) ∧
    (packet.get "version" ≠ some (.jint 0) →
      ((process_packet dispatch false packet).map Prod.snd).getD false = false) := by
  constructor
  · intro hget
    have hd : packet.isDiscarded = false := by
      cases packet <;> simp_all [JVal.get, JVal.isDiscarded]
    simp [process_packet, parse_packet, hd, hget]
  · intro hver
    by_cases hd : packet.isDiscarded = true
    · simp [process_packet, parse_packet, hd]
    · have hd' : packet.isDiscarded = false := by simpa using hd
      cases hty : packet.get "type" with
      | none => simp [process_packet, parse_packet, hd', hty]
      | some tv =>
        cases tv with
        | jstr t =>
          by_cases ht : t = "greeting"
          · subst ht
            have hv : (packet.eraseKey "type").get "version" = packet.get "version" :=
              get_eraseKey_ne packet "type" "version" (by decide)
            cases hver2 : packet.get "version" with
            | none =>
              simp [process_packet, parse_packet, hd', hty, parse_greeting, hv, hver2]
            | some vv =>
              have hvv : vv ≠ .jint 0 := by
                intro hcontra
                exact hver (by rw [hver2, hcontra])
              simp [process_packet, parse_packet, hd', hty, parse_greeting, hv,
                hver2, jeqInt_zero_eq_false hvv]
          · by_cases hc : t = "command"
            · subst hc
              simp [process_packet, parse_packet, hd', hty]
            · simp [process_packet, parse_packet, hd', hty, ht, hc]
        | jnull => simp [process_packet, parse_packet, hd', hty]
        | jbool b => simp [process_packet, parse_packet, hd', hty]
        | jint n => simp [process_packet, parse_packet, hd', hty]
        | jarr l => simp [process_packet, parse_packet, hd', hty]
        | jobj fs => simp [process_packet, parse_packet, hd', hty]
        | jdiscarded => simp [process_packet, parse_packet, hd', hty]

/-- C4 witness: a concrete command packet is rejected with
`protocol_error`, and a concrete version-less greeting leaves the gate
closed. -/
theorem greeting_gate_witness :
    process_packet (fun _ => JVal.jnull) false (.jobj [("type", .jstr "command")]) =
      some (build_error "protocol_error"
        "A command was received before greetings were exchanged.", false) ∧
    ((process_packet (fun _ => JVal.jnull) false
        (.jobj [("type", .jstr "greeting")])).map Prod.snd).getD false = false :=
  ⟨(greeting_gate (fun _ => JVal.jnull) (.jobj [("type", .jstr "command")])).1 rfl,
    (greeting_gate (fun _ => JVal.jnull) (.jobj [("type", .jstr "greeting")])).2
      (by simp [JVal.get, List.lookup])⟩

/-! ### C8, C9: reference management -/

theorem addDesignator_some (table : DebugItems) (acc acc' : Reference)
    (d : String × Nat × Nat) (h : addDesignator table acc d = some acc') :
    ∃ v, varOf table d = some v ∧ acc'.vars = acc.vars ++ [v] := by
  unfold addDesignator at h
  unfold varOf
  cases hl : table.lookup d.1 with
  | none => rw [hl] at h; exact absurd h (by simp)
  | some parts =>
    rw [hl] at h
    cases parts with
    | nil => exact absurd h (by simp)
    | cons part rest =>
      cases rest with
      | cons p2 ps => exact absurd h (by simp)
      | nil =>
        simp only [] at h ⊢
        by_cases hc : (d.2.1 < part.depth && d.2.2 < part.depth) = true
        · rw [if_pos hc] at h
          rw [if_pos hc]
          refine ⟨_, rfl, ?_⟩
          cases h
          rfl
        · rw [if_neg hc] at h
          exact absurd h (by simp)

theorem foldlM_addDesignator (table : DebugItems) :
    ∀ (ds : List (String × Nat × Nat)) (acc ref : Reference),
      List.foldlM (addDesignator table) acc ds = some ref →
      ∃ vs, ds.mapM (varOf table) = some vs ∧ ref.vars = acc.vars ++ vs := by
  intro ds
  induction ds with
  | nil =>
    intro acc ref h
    simp only [List.foldlM_nil] at h
    cases h
    exact ⟨[], rfl, by simp⟩
  | cons d rest ih =>
    intro acc ref h
    rw [List.foldlM_cons] at h
    cases had : addDesignator table acc d with
    | none => rw [had] at h; simp at h
    | some acc' =>
      rw [had] at h
      have h2 : List.foldlM (addDesignator table) acc' rest = some ref := by
        simpa using h
      obtain ⟨vs, hmap, hvars⟩ := ih acc' ref h2
      obtain ⟨v, hv, hacc'⟩ := addDesignator_some table acc acc' d had
      refine ⟨v :: vs, ?_, ?_⟩
      · rw [List.mapM_cons, hv, hmap]
        rfl
      · rw [hvars, hacc']
        simp

theorem parse_designators_cons (table : DebugItems) (d : JVal) (rest : List JVal)
    (ds : List (String × Nat × Nat))
    (h : parse_designators table (d :: rest) = .inr ds) :
    ∃ t ds', ds = t :: ds' ∧ parse_designators table rest = .inr ds' ∧
      ((∃ name, d = .jarr [.jstr name] ∧ t = (name, 0, 0)) ∨
        (∃ name i j, d = .jarr [.jstr name, .jint i, .jint j] ∧
          t = (name, intToSize i, intToSize j))) := by
  unfold parse_designators at h
  split at h
  · -- single-element designator [name]
    split at h
    · exact absurd h (by simp)
    · split at h
      · exact absurd h (by simp)
      · split at h
        · exact absurd h (by simp)
        · simp only [Sum.inr.injEq] at h
          subst h
          exact ⟨_, _, rfl, by assumption, Or.inl ⟨_, rfl, rfl⟩⟩
  · -- three-element designator [name, first, last]
    split at h
    · exact absurd h (by simp)
    · split at h
      · exact absurd h (by simp)
      · split at h
        · exact absurd h (by simp)
        · simp only [Sum.inr.injEq] at h
          subst h
          exact ⟨_, _, rfl, by assumption, Or.inr ⟨_, _, _, rfl, rfl⟩⟩
  · exact absurd h (by simp)

theorem parse_designators_spec (table : DebugItems) :
    ∀ (elems : List JVal) (ds : List (String × Nat × Nat)),
      parse_designators table elems = .inr ds →
      ds.length = elems.length ∧
        ∀ k name, elems.get? k = some (.jarr [.jstr name]) →
          ds.get? k = some (name, 0, 0) := by
  intro elems
  induction elems with
  | nil =>
    intro ds h
    rw [parse_designators] at h
    simp only [Sum.inr.injEq] at h
    cases h
    exact ⟨rfl, by intro k name hk; simp at hk⟩
  | cons d rest ih =>
    intro ds h
    obtain ⟨t, ds', hds, hrest, hshape⟩ := parse_designators_cons table d rest ds h
    obtain ⟨hlen, hidx⟩ := ih ds' hrest
    subst hds
    refine ⟨by simp [hlen], ?_⟩
    intro k name hk
    cases k with
    | zero =>
      simp only [List.get?] at hk ⊢
      cases hk
      rcases hshape with ⟨name', heq, ht⟩ | ⟨name', i, j, heq, ht⟩
      · cases heq
        rw [ht]
      · cases heq
    | succ k' =>
      simp only [List.get?] at hk ⊢
      exact hidx k' name hk

/-- C8: a `reference_items` command with `items: null` erases the named
reference (and succeeds with the empty response whether or not the name
was bound); a command whose designator array parses replaces any
existing reference of the name so that afterwards the name maps to
exactly the variables described by the new designators and every other
name is unchanged; and single-element (node) designators parse to
`(first_index, last_index) = (0, 0)`. -/
theorem reference_items_semantics (table : DebugItems) :
    (∀ (refs : List (String × Reference)) (name : String), name ≠ "" →
      reference_items_command table refs
          (.jobj [("reference", .jstr name), ("items", .jnull)]) =
        some (build_response "reference_items", refsErase refs name) ∧
      (refsErase refs name).lookup name = none ∧
      ∀ m, m ≠ name → (refsErase refs name).lookup m = refs.lookup m) ∧
    (∀ (packet : JVal) (refs : List (String × Reference)) (name : String)
        (ds : List (String × Nat × Nat)) (out : JVal × List (String × Reference)),
      parse_command_reference_items table packet = some (.inr (name, false, ds)) →
      reference_items_command table refs packet = some out →
      out.1 = build_response "reference_items" ∧
      ∃ ref, out.2.lookup name = some ref ∧
        ds.mapM (varOf table) = some ref.vars ∧
        ∀ m, m ≠ name → out.2.lookup m = refs.lookup m) ∧
    (∀ (elems : List JVal) (ds : List (String × Nat × Nat)),
      parse_designators table elems = .inr ds →
      ds.length = elems.length ∧
        ∀ k name, elems.get? k = some (.jarr [.jstr name]) →
          ds.get? k = some (name, 0, 0)) := by
  refine ⟨?_, ?_, parse_designators_spec table⟩
  · intro refs name hname
    have hbeq : (name == "") = false := beq_eq_false_iff_ne.mpr hname
    refine ⟨?_, lookup_filterKey_self name refs, ?_⟩
    · simp [reference_items_command, parse_command_reference_items, JVal.get,
        List.lookup, JVal.isNull, hbeq, JVal.eraseKey, JVal.isArray,
        parse_designators, JVal.isEmptyObj, perform_reference_items]
    · intro m hm
      exact lookup_filterKey_ne name m hm refs
  · intro packet refs name ds out hparse hcmd
    rw [reference_items_command, hparse] at hcmd
    simp only [] at hcmd
    cases hperf : perform_reference_items table refs name false ds with
    | none => rw [hperf] at hcmd; simp at hcmd
    | some refs2 =>
      rw [hperf] at hcmd
      simp only [Option.some.injEq] at hcmd
      cases hcmd
      rw [perform_reference_items] at hperf
      simp only [Bool.false_eq_true, if_false] at hperf
      cases hfold : List.foldlM (addDesignator table) (⟨[], []⟩ : Reference) ds with
      | none => rw [hfold] at hperf; simp at hperf
      | some ref =>
        rw [hfold] at hperf
        simp only [Option.some.injEq] at hperf
        obtain ⟨vs, hmap, hvars⟩ := foldlM_addDesignator table ds ⟨[], []⟩ ref hfold
        refine ⟨rfl, ref, ?_, ?_, ?_⟩
        · rw [← hperf]
          simp [List.lookup]
        · rw [hmap, hvars]
          simp
        · intro m hm
          rw [← hperf]
          simp only [List.lookup, beq_eq_false_iff_ne.mpr hm]
          exact lookup_filterKey_ne name m hm refs

/-- C8 witness: a concrete erase and a concrete replacement over a
one-item table. -/
theorem reference_items_semantics_witness :
    (reference_items_command [("top clk", [⟨false, 1, 1, none⟩])]
        [("A", ⟨[], []⟩)] (.jobj [("reference", .jstr "A"), ("items", .jnull)]) =
      some (build_response "reference_items",
        refsErase [("A", ⟨[], []⟩)] "A")) ∧
    ([] : List (String × Nat × Nat)).length = ([] : List JVal).length :=
  ⟨((reference_items_semantics [("top clk", [⟨false, 1, 1, none⟩])]).1
      [("A", ⟨[], []⟩)] "A" (by decide)).1,
    (((reference_items_semantics [("top clk", [⟨false, 1, 1, none⟩])]).2.2
      [] [] rfl).1)⟩

/-- C9 (failing input): a `reference_items` command whose `reference`
argument is absent, the empty string, or a number is answered with
`invalid_args` and leaves the reference table unchanged — but a `null`
reference passes the validity guard (which accepts `is_null`) and then
`get<std::string>()` throws an unhandled exception, crashing the server
instead of producing the `invalid_args` reply the claim requires. -/
theorem reference_items_null_reference_crash (table : DebugItems)
    (refs : List (String × Reference)) :
    reference_items_command table refs
        (.jobj [("reference", .jnull), ("items", .jnull)]) = none ∧
    reference_items_command table refs (.jobj [("items", .jnull)]) =
      some (build_error "invalid_args"
        "The `reference_items` command requires the `reference` argument to be a non-empty string.", refs) ∧
    reference_items_command table refs
        (.jobj [("reference", .jstr ""), ("items", .jnull)]) =
      some (build_error "invalid_args"
        "The `reference_items` command requires the `reference` argument to be a non-empty string.", refs) ∧
    ∀ n : Int, reference_items_command table refs
        (.jobj [("reference", .jint n), ("items", .jnull)]) =
      some (build_error "invalid_args"
        "The `reference_items` command requires the `reference` argument to be a non-empty string.", refs) := by
  refine ⟨?_, ?_, ?_, ?_⟩ <;>
    simp [reference_items_command, parse_command_reference_items, JVal.get,
      List.lookup, JVal.isNull]

/-! ### C7: status transitions -/

theorem statusInv_step {s s' : Sys} (h : Step s s') (hinv : StatusInv s) :
    StatusInv s' := by
  unfold StatusInv at hinv ⊢
  cases h with
  | step_begin_first e hag hst => simp [agOK]
  | step_begin_next e hag hst =>
    rw [hag] at hinv
    simp only [agOK] at hinv
    rcases hinv with h0 | h0
    · exact absurd h0 hst
    · simp [agOK, h0]
  | step_check_pause e hag hmask => simp [agOK]
  | step_check_done e hag hmask =>
    rw [hag] at hinv
    simp only [agOK] at hinv
    simp [agOK, hinv]
  | step_resume hag hup => simp [agOK]
  | advance_no_pause delta hag hst hle => exact hinv
  | advance_pause delta hag hst hlt => simp [agOK]
  | advance_repause adv hag hup hlt =>
    rw [hag] at hinv ⊢
    simp [agOK]
  | advance_resume adv hag hup hle => simp [agOK]
  | destroy hag => simp [agOK]
  | run_simulation_ok ut ud hsv hst => exact hinv
  | run_simulation_fail hsv hst => exact hinv
  | run_simulation_done hsv hup => exact hinv
  | pause_simulation_begin hsv => exact hinv
  | pause_simulation_done hsv hst => exact hinv

theorem statusInv_reachable {s : Sys} (h : Reachable s) : StatusInv s := by
  unfold Reachable at h
  induction h with
  | refl => simp [StatusInv, initSys, agOK]
  | tail hsteps hstep ih => exact statusInv_step hstep ih

/-- C7 (amended): over every reachable interleaving of agent and server
operations, a change of the shared `status` field is one of
`initializing → running`, `running → paused`, `paused → running`,
`running → finished`, or `initializing → finished` (the last when the
agent is destroyed before its first step); every `paused → running`
transition happens from a state where the server has set
`unpause = true`, and the agent clears `unpause` in that same resume
step. -/
theorem status_transitions (s s' : Sys) (hreach : Reachable s)
    (hstep : Step s s') :
    (s.sh.status ≠ s'.sh.status →
      allowedTransitionAmended s.sh.status s'.sh.status) ∧
    (s.sh.status = .paused → s'.sh.status = .running →
      s.sh.unpause = true ∧ s'.sh.unpause = false) := by
  have hinv : agOK s.ag s.sh.status := statusInv_reachable hreach
  cases hstep with
  | step_begin_first e hag hst =>
    refine ⟨fun _ => ?_, fun hp _ => ?_⟩
    · exact Or.inl (Or.inl ⟨hst, rfl⟩)
    · rw [hst] at hp; cases hp
  | step_begin_next e hag hst =>
    exact ⟨fun hne => absurd rfl hne, fun hp hr => by rw [hp] at hr; cases hr⟩
  | step_check_pause e hag hmask =>
    have hrun : s.sh.status = .running := by
      rw [hag] at hinv; exact hinv
    refine ⟨fun _ => ?_, fun _ hr => ?_⟩
    · exact Or.inl (Or.inr (Or.inl ⟨hrun, rfl⟩))
    · cases hr
  | step_check_done e hag hmask =>
    exact ⟨fun hne => absurd rfl hne, fun hp hr => by rw [hp] at hr; cases hr⟩
  | step_resume hag hup =>
    have hpau : s.sh.status = .paused := by
      rw [hag] at hinv; exact hinv
    exact ⟨fun _ => Or.inl (Or.inr (Or.inr (Or.inl ⟨hpau, rfl⟩))),
      fun _ _ => ⟨hup, rfl⟩⟩
  | advance_no_pause delta hag hst hle =>
    exact ⟨fun hne => absurd rfl hne, fun hp hr => by rw [hp] at hr; cases hr⟩
  | advance_pause delta hag hst hlt =>
    have hrun : s.sh.status = .running := by
      rw [hag] at hinv
      rcases hinv with h0 | h0
      · exact absurd h0 hst
      · exact h0
    refine ⟨fun _ => ?_, fun _ hr => ?_⟩
    · exact Or.inl (Or.inr (Or.inl ⟨hrun, rfl⟩))
    · cases hr
  | advance_repause adv hag hup hlt =>
    have hpau : s.sh.status = .paused := by
      rw [hag] at hinv; exact hinv
    refine ⟨fun hne => ?_, fun _ hr => ?_⟩
    · rw [hpau] at hne; exact absurd rfl hne
    · cases hr
  | advance_resume adv hag hup hle =>
    have hpau : s.sh.status = .paused := by
      rw [hag] at hinv; exact hinv
    exact ⟨fun _ => Or.inl (Or.inr (Or.inr (Or.inl ⟨hpau, rfl⟩))),
      fun _ _ => ⟨hup, rfl⟩⟩
  | destroy hag =>
    rw [hag] at hinv
    refine ⟨fun _ => ?_, fun _ hr => ?_⟩
    · rcases hinv with h0 | h0
      · exact Or.inr ⟨h0, rfl⟩
      · exact Or.inl (Or.inr (Or.inr (Or.inr ⟨h0, rfl⟩)))
    · cases hr
  | run_simulation_ok ut ud hsv hst =>
    exact ⟨fun hne => absurd rfl hne, fun hp hr => by rw [hp] at hr; cases hr⟩
  | run_simulation_fail hsv hst =>
    exact ⟨fun hne => absurd rfl hne, fun hp hr => absurd (hp ▸ hr) (by simp [hp])⟩
  | run_simulation_done hsv hup =>
    exact ⟨fun hne => absurd rfl hne, fun hp hr => by rw [hp] at hr; cases hr⟩
  | pause_simulation_begin hsv =>
    exact ⟨fun hne => absurd rfl hne, fun hp hr => by rw [hp] at hr; cases hr⟩
  | pause_simulation_done hsv hst =>
    exact ⟨fun hne => absurd rfl hne, fun hp hr => by rw [hp] at hr; cases hr⟩

/-- C7 witness: the first step of the agent from the initial state is
the allowed transition `initializing → running`. -/
theorem status_transitions_witness :
    (initSys.sh.status ≠ firstStepSys.sh.status →
      allowedTransitionAmended initSys.sh.status firstStepSys.sh.status) ∧
    (initSys.sh.status = .paused → firstStepSys.sh.status = .running →
      initSys.sh.unpause = true ∧ firstStepSys.sh.unpause = false) :=
  status_transitions initSys firstStepSys Relation.ReflTransGen.refl
    (Step.step_begin_first initSys 0 rfl rfl)

/-- C7 counterexample: destroying the agent before its first step is a
reachable one-step execution whose status change
`initializing → finished` lies outside the claimed lattice. -/
theorem status_transitions_counterexample :
    Reachable initSys ∧
    Step initSys destroyedSys ∧
    initSys.sh.status = .initializing ∧
    destroyedSys.sh.status = .finished ∧
    ¬ allowedTransition .initializing .finished :=
  ⟨Relation.ReflTransGen.refl, Step.destroy initSys rfl, rfl, rfl,
    by simp [allowedTransition]⟩

/-! ### C1: query-interval fast path -/

theorem rewindIdx_eq_pos {α : Type} :
    ∀ (l : List (SpoolSample α)) (pos : Nat) (t : Nat),
      List.Pairwise (fun a b : SpoolSample α => a.stime ≤ b.stime) l →
      ∀ s s', l.get? pos = some s → s.stime ≤ t →
        l.get? (pos + 1) = some s' → t < s'.stime →
        rewindIdx l t = some pos := by
  intro l
  induction l with
  | nil =>
    intro pos t _ s s' hs
    simp [List.get?] at hs
  | cons a rest ih =>
    intro pos t hsorted s s' hs hst hs' hs't
    cases pos with
    | zero =>
      have ha : a = s := by simpa using hs
      subst ha
      have hr' : rest.get? 0 = some s' := by simpa using hs'
      rw [rewindIdx, if_pos hst]
      cases rest with
      | nil => simp [List.get?] at hr'
      | cons b rest2 =>
        have hb : b = s' := by simpa using hr'
        subst hb
        rw [rewindIdx, if_neg (by omega)]
    | succ pos' =>
      have hs1 : rest.get? pos' = some s := by simpa using hs
      have hs'1 : rest.get? (pos' + 1) = some s' := by simpa using hs'
      obtain ⟨hhead, htail⟩ := List.pairwise_cons.mp hsorted
      have ha : a.stime ≤ t :=
        le_trans (hhead s (List.get?_mem hs1)) hst
      rw [rewindIdx, if_pos ha, ih pos' t htail s s' hs1 hst hs'1 hs't]

theorem rewindIdx_isSome_of_head {α : Type} (a : SpoolSample α)
    (rest : List (SpoolSample α)) (t : Nat) (h : a.stime ≤ t) :
    ∃ r, rewindIdx (a :: rest) t = some r := by
  rw [rewindIdx, if_pos h]
  cases rewindIdx rest t <;> exact ⟨_, rfl⟩

/-- C1: with `collapse = true` and `diagnostics = false` the result of
`perform_query_interval` over an unchanged spool does not depend on the
current replay position — in particular the no-rewind fast path (taken
when the position is already at `begin` and the next recorded timestamp
is past `begin`) produces exactly the result of the general path that
rewinds to the last sample at or before `begin`, and two successive
calls return identical `samples` arrays. -/
theorem query_interval_fastpath_consistent {α : Type} [Inhabited α]
    (l : List (SpoolSample α)) (pos pos' : Nat) (beginT endT : Nat)
    (hsorted : List.Pairwise (fun a b : SpoolSample α => a.stime ≤ b.stime) l)
    (hfirst : ∃ s0, l.get? 0 = some s0 ∧ s0.stime ≤ beginT) :
    perform_query_interval l pos beginT endT true false =
      perform_query_interval l pos' beginT endT true false := by
  obtain ⟨s0, hs0, hs0t⟩ := hfirst
  obtain ⟨r, hr⟩ : ∃ r, rewindIdx l beginT = some r := by
    cases l with
    | nil => simp [List.get?] at hs0
    | cons a rest =>
      have ha : a = s0 := by simpa using hs0
      subst ha
      exact rewindIdx_isSome_of_head a rest beginT hs0t
  have key : ∀ q : Nat, perform_query_interval l q beginT endT true false =
      some (queryLoop l endT true false r []) := by
    intro q
    unfold perform_query_interval
    by_cases hguard : (true && !false && (currentTime l q == beginT) &&
        (match getNextTime l q with
          | some t => decide (beginT < t)
          | none => false)) = true
    · rw [if_pos hguard]
      have hcur : currentTime l q = beginT := by
        have := hguard
        simp only [Bool.true_and, Bool.not_false, Bool.and_eq_true,
          beq_iff_eq] at this
        exact this.1
      have hnext : ∃ s', l.get? (q + 1) = some s' ∧ beginT < s'.stime := by
        have hg2 : (match getNextTime l q with
            | some t => decide (beginT < t)
            | none => false) = true := by
          simp only [Bool.true_and, Bool.not_false, Bool.and_eq_true] at hguard
          exact hguard.2
        unfold getNextTime at hg2
        cases hq : l.get? (q + 1) with
        | none => rw [hq] at hg2; simp at hg2
        | some s' =>
          rw [hq] at hg2
          exact ⟨s', rfl, by simpa using hg2⟩
      obtain ⟨s', hq1, hs'⟩ := hnext
      have hqlt : q < l.length := by
        have := (List.get?_eq_some.mp hq1).1
        omega
      obtain ⟨sq, hsq⟩ : ∃ sq, l.get? q = some sq :=
        ⟨l.get ⟨q, hqlt⟩, List.get?_eq_get hqlt⟩
      have hsqt : sq.stime ≤ beginT := by
        have : sampleAt l q = sq := by
          unfold sampleAt
          rw [List.getD_eq_get?, hsq]
          rfl
        unfold currentTime at hcur
        rw [this] at hcur
        omega
      have : rewindIdx l beginT = some q :=
        rewindIdx_eq_pos l q beginT hsorted sq s' hsq hsqt hq1 hs'
      rw [this] at hr
      cases hr
      rfl
    · rw [if_neg hguard, hr]
  rw [key pos, key pos']

/-- C1 witness: a two-sample spool queried from both positions gives the
same `samples` array. -/
theorem query_interval_fastpath_consistent_witness :
    perform_query_interval
        [(⟨0, 7, [], []⟩ : SpoolSample Nat), ⟨5, 8, [], []⟩] 0 0 3 true false =
      perform_query_interval
        [(⟨0, 7, [], []⟩ : SpoolSample Nat), ⟨5, 8, [], []⟩] 1 0 3 true false :=
  query_interval_fastpath_consistent
    [(⟨0, 7, [], []⟩ : SpoolSample Nat), ⟨5, 8, [], []⟩] 0 1 0 3
    (by decide) ⟨⟨0, 7, [], []⟩, rfl, by decide⟩

/-! ### C6: scope listing -/

theorem mem_insertScope (acc : List (List Char)) (x y : List Char) :
    y ∈ insertScope acc x ↔ y ∈ acc ∨ y = x := by
  unfold insertScope
  by_cases hx : x ∈ acc
  · rw [if_pos hx]
    constructor
    · exact Or.inl
    · rintro (hy | hy)
      · exact hy
      · rw [hy]; exact hx
  · rw [if_neg hx]
    simp

theorem listScopesGo_mem (all : Bool) (scope : List Char) :
    ∀ (items : List (List Char)) (cs : List Char) (acc : List (List Char))
      (x : List Char),
      (scopeCond all scope cs = true → cs ∈ acc ∨ ∀ i ∈ items, upToLastSpace i ≠ cs) →
      (x ∈ listScopesGo all scope cs acc items ↔
        x ∈ acc ∨ ∃ i ∈ items, upToLastSpace i = x ∧ scopeCond all scope x = true) := by
  intro items
  induction items with
  | nil =>
    intro cs acc x hinv
    simp [listScopesGo]
  | cons item rest ih =>
    intro cs acc x hinv
    rw [listScopesGo]
    by_cases hisc : (upToLastSpace item == cs) = true
    · rw [if_pos hisc]
      have he : upToLastSpace item = cs := beq_iff_eq.mp hisc
      have hcs : scopeCond all scope cs = true → cs ∈ acc := by
        intro hc
        rcases hinv hc with hmem | hall
        · exact hmem
        · exact absurd he (hall item (List.mem_cons_self _ _))
      rw [ih cs acc x (fun hc => Or.inl (hcs hc))]
      constructor
      · rintro (hx | ⟨i, hi, hfi, hcond⟩)
        · exact Or.inl hx
        · exact Or.inr ⟨i, List.mem_cons_of_mem _ hi, hfi, hcond⟩
      · rintro (hx | ⟨i, hi, hfi, hcond⟩)
        · exact Or.inl hx
        · rcases List.mem_cons.mp hi with hi0 | hi'
          · subst hi0
            rw [he] at hfi
            subst hfi
            exact Or.inl (hcs hcond)
          · exact Or.inr ⟨i, hi', hfi, hcond⟩
    · rw [if_neg hisc]
      have hne : upToLastSpace item ≠ cs := by
        intro hcontra
        exact hisc (beq_iff_eq.mpr hcontra)
      set isc := upToLastSpace item with hisc_def
      set acc' := if scopeCond all scope isc then insertScope acc isc else acc
        with hacc'
      have hinv' : scopeCond all scope isc = true →
          isc ∈ acc' ∨ ∀ i ∈ rest, upToLastSpace i ≠ isc := by
        intro hc
        left
        rw [hacc', if_pos hc]
        exact (mem_insertScope acc isc isc).mpr (Or.inr rfl)
      rw [ih isc acc' x hinv']
      have hmem' : x ∈ acc' ↔ x ∈ acc ∨ (scopeCond all scope isc = true ∧ x = isc) := by
        rw [hacc']
        by_cases hc : scopeCond all scope isc = true
        · rw [if_pos hc, mem_insertScope]
          constructor
          · rintro (hx | hx)
            · exact Or.inl hx
            · exact Or.inr ⟨hc, hx⟩
          · rintro (hx | ⟨_, hx⟩)
            · exact Or.inl hx
            · exact Or.inr hx
        · rw [if_neg hc]
          constructor
          · exact Or.inl
          · rintro (hx | ⟨hcond, _⟩)
            · exact hx
            · exact absurd hcond hc
      rw [hmem']
      constructor
      · rintro ((hx | ⟨hcond, hx⟩) | ⟨i, hi, hfi, hcond⟩)
        · exact Or.inl hx
        · subst hx
          exact Or.inr ⟨item, List.mem_cons_self _ _, rfl, hcond⟩
        · exact Or.inr ⟨i, List.mem_cons_of_mem _ hi, hfi, hcond⟩
      · rintro (hx | ⟨i, hi, hfi, hcond⟩)
        · exact Or.inl (Or.inl hx)
        · rcases List.mem_cons.mp hi with hi0 | hi'
          · subst hi0
            subst hfi
            exact Or.inl (Or.inr ⟨hcond, rfl⟩)
          · exact Or.inr ⟨i, hi', hfi, hcond⟩

theorem isEmpty_true_iff (l : List Char) : l.isEmpty = true ↔ l = [] := by
  cases l <;> simp

theorem isEmpty_false_iff (l : List Char) : l.isEmpty = false ↔ l ≠ [] := by
  cases l <;> simp

theorem scopeCond_eq_true_iff (all : Bool) (scope x : List Char) :
    scopeCond all scope x = true ↔
      (all = true ∨ (scope = [] ∧ x.contains ' ' = false) ∨
        (scope ≠ [] ∧ x.contains ' ' = true ∧ upToLastSpace x = scope)) := by
  simp only [scopeCond, Bool.or_eq_true, Bool.and_eq_true, Bool.not_eq_true',
    beq_iff_eq, isEmpty_true_iff, isEmpty_false_iff]
  tauto

/-- C6: a scope path is listed by `list_scopes` iff it is the scope of
some item and passes the requested filter: with `scope = null`
(`all = true`) every distinct scope of the items regardless of depth;
with `scope = ""` exactly the scopes whose name contains no space; with
any other `scope = s` exactly the scopes that contain a space and whose
prefix up to the last space equals `s`.  The hypothesis excludes the
impossible sentinel scope `" invalid"`, which the source comments state
cannot appear as a scope name. -/
theorem list_scopes_semantics (all : Bool) (scope : List Char)
    (items : List (List Char)) (x : List Char)
    (hsentinel : ∀ i ∈ items, upToLastSpace i ≠ " invalid".toList) :
    x ∈ perform_list_scopes all scope items ↔
      (∃ i ∈ items, upToLastSpace i = x) ∧
        (all = true ∨ (scope = [] ∧ x.contains ' ' = false) ∨
          (scope ≠ [] ∧ x.contains ' ' = true ∧ upToLastSpace x = scope)) := by
  rw [perform_list_scopes,
    listScopesGo_mem all scope items " invalid".toList [] x
      (fun _ => Or.inr hsentinel)]
  rw [← scopeCond_eq_true_iff all scope x]
  constructor
  · rintro (hx | ⟨i, hi, hfi, hcond⟩)
    · exact absurd hx (List.not_mem_nil x)
    · exact ⟨⟨i, hi, hfi⟩, hcond⟩
  · rintro ⟨⟨i, hi, hfi⟩, hcond⟩
    exact Or.inr ⟨i, hi, hfi, hcond⟩

/-- C6 witness: with items `"a"` and `"b c"`, scope `"b"` is listed when
all scopes are requested, because it is the scope of item `"b c"`. -/
theorem list_scopes_semantics_witness :
    "b".toList ∈ perform_list_scopes true [] ["a".toList, "b c".toList] ↔
      (∃ i ∈ ["a".toList, "b c".toList], upToLastSpace i = "b".toList) ∧
        (true = true ∨ (([] : List Char) = [] ∧ "b".toList.contains ' ' = false) ∨
          (([] : List Char) ≠ [] ∧ "b".toList.contains ' ' = true ∧
            upToLastSpace "b".toList = [])) :=
  list_scopes_semantics true [] ["a".toList, "b c".toList] "b".toList (by decide)

end CxxrtlServer
